import Mathlib

/-!
# Verification of `parity-common` claims: `Secret` scalar arithmetic and trie root hashing

This file gives a shallow embedding of two components of the repository:

* `parity-crypto/src/publickey/secret_key.rs` — the `Secret` 32-byte secp256k1
  scalar with in-place modular arithmetic.  The 32-byte buffer is embedded as a
  natural number below `2 ^ 256` (big-endian byte interpretation; byte-wise
  equality coincides with equality of the numbers).  Each mutating operation is
  embedded as a state-passing function returning the operation's
  `Result` together with the final contents of `self`, so that partial
  mutation on error paths is observable.
* `triehash/src/lib.rs` — `trie_root` / `sec_trie_root` / `ordered_trie_root`
  over an abstract hasher `H` and an abstract trie stream `S`, embedded as a
  structure of stream operations.

The secp256k1 scalar library (`secp256k1::key::SecretKey`) is not part of
`src/`; its behaviour is modelled from the spec (§4.1, §9: the curve layer
rejects scalars that are zero or not below the group order, and rejects
operations that would produce the zero scalar).  Several proofs need the
primality of the secp256k1 group order; it is established by a chain of
Lucas certificates verified through a fuel-indexed modular exponentiation
function.
-/

set_option maxRecDepth 8000

/-! ## Modular exponentiation by repeated squaring (kernel-computable) -/

/-- Fuel-indexed square-and-multiply modular exponentiation: computes
`a ^ e % m` as long as `e < 2 ^ fuel`.  Structural recursion on the fuel keeps
the definition kernel-reducible, so `decide` can evaluate it on 256-bit
inputs. -/
def powMod : Nat → Nat → Nat → Nat → Nat
  | 0, _, _, m => 1 % m
  | f + 1, a, e, m =>
    if e = 0 then 1 % m
    else
      let r := powMod f (a * a % m) (e / 2) m
      if e % 2 = 1 then r * a % m else r

theorem powMod_lt (f a e m : Nat) (hm : 0 < m) : powMod f a e m < m := by
  induction f generalizing a e with
  | zero => exact Nat.mod_lt _ hm
  | succ f ih =>
    unfold powMod
    by_cases h0 : e = 0
    · simp [h0]; exact Nat.mod_lt _ hm
    · simp only [h0, if_false]
      by_cases hodd : e % 2 = 1
      · simp [hodd]; exact Nat.mod_lt _ hm
      · simp [hodd]; exact ih _ _

theorem powMod_spec (f a e m : Nat) (_hm : 0 < m) (he : e < 2 ^ f) :
    powMod f a e m = a ^ e % m := by
  induction f generalizing a e with
  | zero =>
    have : e = 0 := by simpa using Nat.lt_one_iff.mp (by simpa using he)
    subst this
    simp [powMod]
  | succ f ih =>
    unfold powMod
    by_cases h0 : e = 0
    · subst h0; simp
    · simp only [h0, if_false]
      have hdiv : e / 2 < 2 ^ f := by
        have h2 : e < 2 ^ f * 2 := by
          have : (2 : Nat) ^ (f + 1) = 2 ^ f * 2 := by ring
          omega
        exact Nat.div_lt_of_lt_mul (by omega)
      have hr : powMod f (a * a % m) (e / 2) m = (a * a) ^ (e / 2) % m := by
        rw [ih _ _ hdiv, ← Nat.pow_mod]
      have hsq : (a * a) ^ (e / 2) = a ^ (2 * (e / 2)) := by
        rw [Nat.pow_mul, pow_two]
      by_cases hodd : e % 2 = 1
      · simp only [hodd, if_true]
        rw [hr, hsq, Nat.mod_mul_mod, ← pow_succ]
        have he2 : 2 * (e / 2) + 1 = e := by omega
        rw [he2]
      · simp only [hodd, if_false]
        have he2 : 2 * (e / 2) = e := by omega
        rw [hr, hsq, he2]

theorem zmod_pow_cast (p g e : Nat) (hp : 0 < p) (he : e < 2 ^ 256) :
    (g : ZMod p) ^ e = ((powMod 256 g e p : Nat) : ZMod p) := by
  rw [powMod_spec 256 g e p hp he, ZMod.natCast_mod, Nat.cast_pow]

theorem zmod_pow_eq_one (p g e : Nat) (hp : 1 < p) (he : e < 2 ^ 256)
    (h : powMod 256 g e p = 1) : (g : ZMod p) ^ e = 1 := by
  rw [zmod_pow_cast p g e (by omega) he, h, Nat.cast_one]

theorem zmod_pow_ne_one (p g e : Nat) (hp : 1 < p) (he : e < 2 ^ 256)
    (h : powMod 256 g e p ≠ 1) : (g : ZMod p) ^ e ≠ 1 := by
  haveI : Fact (1 < p) := ⟨hp⟩
  rw [zmod_pow_cast p g e (by omega) he]
  intro hcontra
  apply h
  have hval := congrArg ZMod.val hcontra
  rwa [ZMod.val_cast_of_lt (powMod_lt 256 g e p (by omega)), ZMod.val_one] at hval

/-! ### Primality certificates (Lucas / Pratt chain) for the secp256k1 group order -/

theorem prime_1627771 : Nat.Prime 1627771 := by
  have hp : (1 : Nat) < 1627771 := by norm_num
  apply lucas_primality 1627771 ((3 : Nat) : ZMod 1627771)
  · exact zmod_pow_eq_one _ 3 _ hp (by norm_num) (by decide)
  · intro q hq hdvd
    have hfac : (1627771 : Nat) - 1 = 2 * (3 * (5 * (29 * 1871))) := by norm_num
    rw [hfac] at hdvd
    have hq2 : q = 2 ∨ q = 3 ∨ q = 5 ∨ q = 29 ∨ q = 1871 := by
      rcases (hq.dvd_mul).mp hdvd with h | h
      · exact Or.inl ((Nat.prime_dvd_prime_iff_eq hq (by norm_num)).mp h)
      rcases (hq.dvd_mul).mp h with h | h
      · exact Or.inr (Or.inl ((Nat.prime_dvd_prime_iff_eq hq (by norm_num)).mp h))
      rcases (hq.dvd_mul).mp h with h | h
      · exact Or.inr (Or.inr (Or.inl ((Nat.prime_dvd_prime_iff_eq hq (by norm_num)).mp h)))
      rcases (hq.dvd_mul).mp h with h | h
      · exact Or.inr (Or.inr (Or.inr (Or.inl ((Nat.prime_dvd_prime_iff_eq hq (by norm_num)).mp h))))
      · exact Or.inr (Or.inr (Or.inr (Or.inr ((Nat.prime_dvd_prime_iff_eq hq (by norm_num)).mp h))))
    rcases hq2 with rfl | rfl | rfl | rfl | rfl <;>
      exact zmod_pow_ne_one _ _ _ hp (by norm_num) (by decide)

theorem prime_305873 : Nat.Prime 305873 := by
  have hp : (1 : Nat) < 305873 := by norm_num
  apply lucas_primality 305873 ((3 : Nat) : ZMod 305873)
  · exact zmod_pow_eq_one _ 3 _ hp (by norm_num) (by decide)
  · intro q hq hdvd
    have hfac : (305873 : Nat) - 1 = 2 ^ 4 * (7 * 2731) := by norm_num
    rw [hfac] at hdvd
    have hq2 : q = 2 ∨ q = 7 ∨ q = 2731 := by
      rcases hq.dvd_mul.mp hdvd with h | h
      · exact Or.inl ((Nat.prime_dvd_prime_iff_eq hq (by norm_num)).mp (hq.dvd_of_dvd_pow h))
      rcases hq.dvd_mul.mp h with h | h
      · exact Or.inr (Or.inl ((Nat.prime_dvd_prime_iff_eq hq (by norm_num)).mp h))
      · exact Or.inr (Or.inr ((Nat.prime_dvd_prime_iff_eq hq (by norm_num)).mp h))
    rcases hq2 with rfl | rfl | rfl <;>
      exact zmod_pow_ne_one _ _ _ hp (by norm_num) (by decide)

theorem prime_545358713 : Nat.Prime 545358713 := by
  have hp : (1 : Nat) < 545358713 := by norm_num
  apply lucas_primality 545358713 ((5 : Nat) : ZMod 545358713)
  · exact zmod_pow_eq_one _ 5 _ hp (by norm_num) (by decide)
  · intro q hq hdvd
    have hfac : (545358713 : Nat) - 1 = 2 ^ 3 * (41 * (59 * 28181)) := by norm_num
    rw [hfac] at hdvd
    have hq2 : q = 2 ∨ q = 41 ∨ q = 59 ∨ q = 28181 := by
      rcases hq.dvd_mul.mp hdvd with h | h
      · exact Or.inl ((Nat.prime_dvd_prime_iff_eq hq (by norm_num)).mp (hq.dvd_of_dvd_pow h))
      rcases hq.dvd_mul.mp h with h | h
      · exact Or.inr (Or.inl ((Nat.prime_dvd_prime_iff_eq hq (by norm_num)).mp h))
      rcases hq.dvd_mul.mp h with h | h
      · exact Or.inr (Or.inr (Or.inl ((Nat.prime_dvd_prime_iff_eq hq (by norm_num)).mp h)))
      · exact Or.inr (Or.inr (Or.inr ((Nat.prime_dvd_prime_iff_eq hq (by norm_num)).mp h)))
    rcases hq2 with rfl | rfl | rfl | rfl <;>
      exact zmod_pow_ne_one _ _ _ hp (by norm_num) (by decide)

theorem prime_297159362677 : Nat.Prime 297159362677 := by
  have hp : (1 : Nat) < 297159362677 := by norm_num
  apply lucas_primality 297159362677 ((2 : Nat) : ZMod 297159362677)
  · exact zmod_pow_eq_one _ 2 _ hp (by norm_num) (by decide)
  · intro q hq hdvd
    have hfac : (297159362677 : Nat) - 1 = 2 ^ 2 * (3 ^ 2 * (11 * (461 * 1627771))) := by
      norm_num
    rw [hfac] at hdvd
    have hq2 : q = 2 ∨ q = 3 ∨ q = 11 ∨ q = 461 ∨ q = 1627771 := by
      rcases hq.dvd_mul.mp hdvd with h | h
      · exact Or.inl ((Nat.prime_dvd_prime_iff_eq hq (by norm_num)).mp (hq.dvd_of_dvd_pow h))
      rcases hq.dvd_mul.mp h with h | h
      · exact Or.inr (Or.inl
          ((Nat.prime_dvd_prime_iff_eq hq (by norm_num)).mp (hq.dvd_of_dvd_pow h)))
      rcases hq.dvd_mul.mp h with h | h
      · exact Or.inr (Or.inr (Or.inl ((Nat.prime_dvd_prime_iff_eq hq (by norm_num)).mp h)))
      rcases hq.dvd_mul.mp h with h | h
      · exact Or.inr (Or.inr (Or.inr (Or.inl
          ((Nat.prime_dvd_prime_iff_eq hq (by norm_num)).mp h))))
      · exact Or.inr (Or.inr (Or.inr (Or.inr
          ((Nat.prime_dvd_prime_iff_eq hq prime_1627771).mp h))))
    rcases hq2 with rfl | rfl | rfl | rfl | rfl <;>
      exact zmod_pow_ne_one _ _ _ hp (by norm_num) (by decide)

theorem prime_29047611873442575647497758179 :
    Nat.Prime 29047611873442575647497758179 := by
  have hp : (1 : Nat) < 29047611873442575647497758179 := by norm_num
  apply lucas_primality 29047611873442575647497758179
    ((2 : Nat) : ZMod 29047611873442575647497758179)
  · exact zmod_pow_eq_one _ 2 _ hp (by norm_num) (by decide)
  · intro q hq hdvd
    have hfac : (29047611873442575647497758179 : Nat) - 1 =
        2 * (293 * (305873 * (545358713 * 297159362677))) := by norm_num
    rw [hfac] at hdvd
    have hq2 : q = 2 ∨ q = 293 ∨ q = 305873 ∨ q = 545358713 ∨ q = 297159362677 := by
      rcases hq.dvd_mul.mp hdvd with h | h
      · exact Or.inl ((Nat.prime_dvd_prime_iff_eq hq (by norm_num)).mp h)
      rcases hq.dvd_mul.mp h with h | h
      · exact Or.inr (Or.inl ((Nat.prime_dvd_prime_iff_eq hq (by norm_num)).mp h))
      rcases hq.dvd_mul.mp h with h | h
      · exact Or.inr (Or.inr (Or.inl ((Nat.prime_dvd_prime_iff_eq hq prime_305873).mp h)))
      rcases hq.dvd_mul.mp h with h | h
      · exact Or.inr (Or.inr (Or.inr (Or.inl
          ((Nat.prime_dvd_prime_iff_eq hq prime_545358713).mp h))))
      · exact Or.inr (Or.inr (Or.inr (Or.inr
          ((Nat.prime_dvd_prime_iff_eq hq prime_297159362677).mp h))))
    rcases hq2 with rfl | rfl | rfl | rfl | rfl <;>
      exact zmod_pow_ne_one _ _ _ hp (by norm_num) (by decide)

theorem prime_4681609 : Nat.Prime 4681609 := by
  have hp : (1 : Nat) < 4681609 := by norm_num
  apply lucas_primality 4681609 ((23 : Nat) : ZMod 4681609)
  · exact zmod_pow_eq_one _ 23 _ hp (by norm_num) (by decide)
  · intro q hq hdvd
    have hfac : (4681609 : Nat) - 1 = 2 ^ 3 * (3 * (97 * 2011)) := by norm_num
    rw [hfac] at hdvd
    have hq2 : q = 2 ∨ q = 3 ∨ q = 97 ∨ q = 2011 := by
      rcases hq.dvd_mul.mp hdvd with h | h
      · exact Or.inl ((Nat.prime_dvd_prime_iff_eq hq (by norm_num)).mp (hq.dvd_of_dvd_pow h))
      rcases hq.dvd_mul.mp h with h | h
      · exact Or.inr (Or.inl ((Nat.prime_dvd_prime_iff_eq hq (by norm_num)).mp h))
      rcases hq.dvd_mul.mp h with h | h
      · exact Or.inr (Or.inr (Or.inl ((Nat.prime_dvd_prime_iff_eq hq (by norm_num)).mp h)))
      · exact Or.inr (Or.inr (Or.inr ((Nat.prime_dvd_prime_iff_eq hq (by norm_num)).mp h)))
    rcases hq2 with rfl | rfl | rfl | rfl <;>
      exact zmod_pow_ne_one _ _ _ hp (by norm_num) (by decide)

theorem prime_120233 : Nat.Prime 120233 := by
  have hp : (1 : Nat) < 120233 := by norm_num
  apply lucas_primality 120233 ((3 : Nat) : ZMod 120233)
  · exact zmod_pow_eq_one _ 3 _ hp (by norm_num) (by decide)
  · intro q hq hdvd
    have hfac : (120233 : Nat) - 1 = 2 ^ 3 * (7 * (19 * 113)) := by norm_num
    rw [hfac] at hdvd
    have hq2 : q = 2 ∨ q = 7 ∨ q = 19 ∨ q = 113 := by
      rcases hq.dvd_mul.mp hdvd with h | h
      · exact Or.inl ((Nat.prime_dvd_prime_iff_eq hq (by norm_num)).mp (hq.dvd_of_dvd_pow h))
      rcases hq.dvd_mul.mp h with h | h
      · exact Or.inr (Or.inl ((Nat.prime_dvd_prime_iff_eq hq (by norm_num)).mp h))
      rcases hq.dvd_mul.mp h with h | h
      · exact Or.inr (Or.inr (Or.inl ((Nat.prime_dvd_prime_iff_eq hq (by norm_num)).mp h)))
      · exact Or.inr (Or.inr (Or.inr ((Nat.prime_dvd_prime_iff_eq hq (by norm_num)).mp h)))
    rcases hq2 with rfl | rfl | rfl | rfl <;>
      exact zmod_pow_ne_one _ _ _ hp (by norm_num) (by decide)

theorem prime_44706919 : Nat.Prime 44706919 := by
  have hp : (1 : Nat) < 44706919 := by norm_num
  apply lucas_primality 44706919 ((6 : Nat) : ZMod 44706919)
  · exact zmod_pow_eq_one _ 6 _ hp (by norm_num) (by decide)
  · intro q hq hdvd
    have hfac : (44706919 : Nat) - 1 = 2 * (3 * (797 * 9349)) := by norm_num
    rw [hfac] at hdvd
    have hq2 : q = 2 ∨ q = 3 ∨ q = 797 ∨ q = 9349 := by
      rcases hq.dvd_mul.mp hdvd with h | h
      · exact Or.inl ((Nat.prime_dvd_prime_iff_eq hq (by norm_num)).mp h)
      rcases hq.dvd_mul.mp h with h | h
      · exact Or.inr (Or.inl ((Nat.prime_dvd_prime_iff_eq hq (by norm_num)).mp h))
      rcases hq.dvd_mul.mp h with h | h
      · exact Or.inr (Or.inr (Or.inl ((Nat.prime_dvd_prime_iff_eq hq (by norm_num)).mp h)))
      · exact Or.inr (Or.inr (Or.inr ((Nat.prime_dvd_prime_iff_eq hq (by norm_num)).mp h)))
    rcases hq2 with rfl | rfl | rfl | rfl <;>
      exact zmod_pow_ne_one _ _ _ hp (by norm_num) (by decide)

theorem prime_107361793816595537 : Nat.Prime 107361793816595537 := by
  have hp : (1 : Nat) < 107361793816595537 := by norm_num
  apply lucas_primality 107361793816595537 ((3 : Nat) : ZMod 107361793816595537)
  · exact zmod_pow_eq_one _ 3 _ hp (by norm_num) (by decide)
  · intro q hq hdvd
    have hfac : (107361793816595537 : Nat) - 1 =
        2 ^ 4 * (16699 * (85831 * 4681609)) := by norm_num
    rw [hfac] at hdvd
    have hq2 : q = 2 ∨ q = 16699 ∨ q = 85831 ∨ q = 4681609 := by
      rcases hq.dvd_mul.mp hdvd with h | h
      · exact Or.inl ((Nat.prime_dvd_prime_iff_eq hq (by norm_num)).mp (hq.dvd_of_dvd_pow h))
      rcases hq.dvd_mul.mp h with h | h
      · exact Or.inr (Or.inl ((Nat.prime_dvd_prime_iff_eq hq (by norm_num)).mp h))
      rcases hq.dvd_mul.mp h with h | h
      · exact Or.inr (Or.inr (Or.inl ((Nat.prime_dvd_prime_iff_eq hq (by norm_num)).mp h)))
      · exact Or.inr (Or.inr (Or.inr ((Nat.prime_dvd_prime_iff_eq hq prime_4681609).mp h)))
    rcases hq2 with rfl | rfl | rfl | rfl <;>
      exact zmod_pow_ne_one _ _ _ hp (by norm_num) (by decide)

theorem prime_174723607534414371449 : Nat.Prime 174723607534414371449 := by
  have hp : (1 : Nat) < 174723607534414371449 := by norm_num
  apply lucas_primality 174723607534414371449 ((3 : Nat) : ZMod 174723607534414371449)
  · exact zmod_pow_eq_one _ 3 _ hp (by norm_num) (by decide)
  · intro q hq hdvd
    have hfac : (174723607534414371449 : Nat) - 1 =
        2 ^ 3 * (17 * (59 * (4051 * (120233 * 44706919)))) := by norm_num
    rw [hfac] at hdvd
    have hq2 : q = 2 ∨ q = 17 ∨ q = 59 ∨ q = 4051 ∨ q = 120233 ∨ q = 44706919 := by
      rcases hq.dvd_mul.mp hdvd with h | h
      · exact Or.inl ((Nat.prime_dvd_prime_iff_eq hq (by norm_num)).mp (hq.dvd_of_dvd_pow h))
      rcases hq.dvd_mul.mp h with h | h
      · exact Or.inr (Or.inl ((Nat.prime_dvd_prime_iff_eq hq (by norm_num)).mp h))
      rcases hq.dvd_mul.mp h with h | h
      · exact Or.inr (Or.inr (Or.inl ((Nat.prime_dvd_prime_iff_eq hq (by norm_num)).mp h)))
      rcases hq.dvd_mul.mp h with h | h
      · exact Or.inr (Or.inr (Or.inr (Or.inl
          ((Nat.prime_dvd_prime_iff_eq hq (by norm_num)).mp h))))
      rcases hq.dvd_mul.mp h with h | h
      · exact Or.inr (Or.inr (Or.inr (Or.inr (Or.inl
          ((Nat.prime_dvd_prime_iff_eq hq prime_120233).mp h)))))
      · exact Or.inr (Or.inr (Or.inr (Or.inr (Or.inr
          ((Nat.prime_dvd_prime_iff_eq hq prime_44706919).mp h)))))
    rcases hq2 with rfl | rfl | rfl | rfl | rfl | rfl <;>
      exact zmod_pow_ne_one _ _ _ hp (by norm_num) (by decide)

theorem prime_341948486974166000522343609283189 :
    Nat.Prime 341948486974166000522343609283189 := by
  have hp : (1 : Nat) < 341948486974166000522343609283189 := by norm_num
  apply lucas_primality 341948486974166000522343609283189
    ((2 : Nat) : ZMod 341948486974166000522343609283189)
  · exact zmod_pow_eq_one _ 2 _ hp (by norm_num) (by decide)
  · intro q hq hdvd
    have hfac : (341948486974166000522343609283189 : Nat) - 1 =
        2 ^ 2 * (3 ^ 3 * (109 * 29047611873442575647497758179)) := by norm_num
    rw [hfac] at hdvd
    have hq2 : q = 2 ∨ q = 3 ∨ q = 109 ∨ q = 29047611873442575647497758179 := by
      rcases hq.dvd_mul.mp hdvd with h | h
      · exact Or.inl ((Nat.prime_dvd_prime_iff_eq hq (by norm_num)).mp (hq.dvd_of_dvd_pow h))
      rcases hq.dvd_mul.mp h with h | h
      · exact Or.inr (Or.inl
          ((Nat.prime_dvd_prime_iff_eq hq (by norm_num)).mp (hq.dvd_of_dvd_pow h)))
      rcases hq.dvd_mul.mp h with h | h
      · exact Or.inr (Or.inr (Or.inl ((Nat.prime_dvd_prime_iff_eq hq (by norm_num)).mp h)))
      · exact Or.inr (Or.inr (Or.inr
          ((Nat.prime_dvd_prime_iff_eq hq prime_29047611873442575647497758179).mp h)))
    rcases hq2 with rfl | rfl | rfl | rfl <;>
      exact zmod_pow_ne_one _ _ _ hp (by norm_num) (by decide)

/-- The secp256k1 group order `n`, as used by the curve library backing
`Secret` (spec §3: scalars are integers in `[0, n)`). -/
def secpOrder : Nat :=
  115792089237316195423570985008687907852837564279074904382605163141518161494337

theorem secpOrder_prime : Nat.Prime secpOrder := by
  have hp : (1 : Nat) < secpOrder := by norm_num [secpOrder]
  apply lucas_primality secpOrder ((7 : Nat) : ZMod secpOrder)
  · exact zmod_pow_eq_one _ 7 _ hp (by norm_num [secpOrder]) (by decide)
  · intro q hq hdvd
    have hfac : secpOrder - 1 =
        2 ^ 6 * (3 * (149 * (631 * (107361793816595537 *
          (174723607534414371449 * 341948486974166000522343609283189))))) := by
      norm_num [secpOrder]
    rw [hfac] at hdvd
    have hq2 : q = 2 ∨ q = 3 ∨ q = 149 ∨ q = 631 ∨ q = 107361793816595537 ∨
        q = 174723607534414371449 ∨ q = 341948486974166000522343609283189 := by
      rcases hq.dvd_mul.mp hdvd with h | h
      · exact Or.inl ((Nat.prime_dvd_prime_iff_eq hq (by norm_num)).mp (hq.dvd_of_dvd_pow h))
      rcases hq.dvd_mul.mp h with h | h
      · exact Or.inr (Or.inl ((Nat.prime_dvd_prime_iff_eq hq (by norm_num)).mp h))
      rcases hq.dvd_mul.mp h with h | h
      · exact Or.inr (Or.inr (Or.inl ((Nat.prime_dvd_prime_iff_eq hq (by norm_num)).mp h)))
      rcases hq.dvd_mul.mp h with h | h
      · exact Or.inr (Or.inr (Or.inr (Or.inl
          ((Nat.prime_dvd_prime_iff_eq hq (by norm_num)).mp h))))
      rcases hq.dvd_mul.mp h with h | h
      · exact Or.inr (Or.inr (Or.inr (Or.inr (Or.inl
          ((Nat.prime_dvd_prime_iff_eq hq prime_107361793816595537).mp h)))))
      rcases hq.dvd_mul.mp h with h | h
      · exact Or.inr (Or.inr (Or.inr (Or.inr (Or.inr (Or.inl
          ((Nat.prime_dvd_prime_iff_eq hq prime_174723607534414371449).mp h))))))
      · exact Or.inr (Or.inr (Or.inr (Or.inr (Or.inr (Or.inr
          ((Nat.prime_dvd_prime_iff_eq hq prime_341948486974166000522343609283189).mp h))))))
    rcases hq2 with rfl | rfl | rfl | rfl | rfl | rfl | rfl <;>
      exact zmod_pow_ne_one _ _ _ hp (by norm_num [secpOrder]) (by decide)

/-! ## The `Secret` scalar — `parity-crypto/src/publickey/secret_key.rs`

A `Secret` owns a 32-byte big-endian buffer (`Box<H256>`); we embed the buffer
contents as a natural number below `2 ^ 256`.  Byte-wise equality of buffers
coincides with equality of these numbers.  Each in-place arithmetic operation
becomes a function from the states of `self` and `other` to the pair of the
returned `Result` and the final state of `self`, making partial mutation on
error paths observable. -/

/-- The error sum type of the `publickey` module (spec §7): `InvalidSecretKey`,
`InvalidHex`, and a `Custom` pass-through message. -/
inductive Error where
  | InvalidSecretKey : Error
  | InvalidHex : Error
  | Custom : String → Error
deriving DecidableEq

/-- Modelled from the spec: the constant `super::MINUS_ONE_KEY` (not under
`src/`) is the 32-byte literal holding `n - 1`, "the canonical minus-one
scalar" (spec §9 and glossary entry "M1"). -/
def MINUS_ONE_KEY : Nat := secpOrder - 1

namespace SecretKey

/-- Modelled from the spec: `secp256k1::key::SecretKey::from_slice` (the curve
library, not under `src/`) accepts exactly the scalars that are "non-zero and
less than `n`" (spec §4.1 `import_key`); anything else is rejected with
`InvalidSecretKey`.  The 32-byte slice is represented by its big-endian
value. -/
def from_slice (b : Nat) : Except Error Nat :=
  if b == 0 || Nat.ble secpOrder b then .error .InvalidSecretKey else .ok b

/-- Modelled from the spec: the curve library's tweak-add `add_assign` computes
`(a + t) mod n` and "rejects operations that would produce the zero scalar" or
an out-of-range tweak (spec §4.1 rationale, §9). -/
def add_assign (a t : Nat) : Except Error Nat :=
  if Nat.ble secpOrder t then .error .InvalidSecretKey
  else if (a + t) % secpOrder == 0 then .error .InvalidSecretKey
  else .ok ((a + t) % secpOrder)

/-- Modelled from the spec: the curve library's tweak-mul `mul_assign` computes
`(a * t) mod n`, rejecting a zero or out-of-range tweak and a zero result
(spec §4.1 rationale, §9). -/
def mul_assign (a t : Nat) : Except Error Nat :=
  if t == 0 || Nat.ble secpOrder t then .error .InvalidSecretKey
  else if (a * t) % secpOrder == 0 then .error .InvalidSecretKey
  else .ok ((a * t) % secpOrder)

end SecretKey

namespace Secret

/-- The source's `Secret::is_zero` (via `H256::is_zero`): byte-wise zero test
of the buffer. -/
def is_zero (s : Nat) : Bool := s == 0

/-- The source's `Secret::add` (lines 118–135): zero-guards via
`(self.is_zero(), other.is_zero())`, otherwise curve-layer validate, tweak-add
and a single final assignment of `self`.  Returns the `Result` paired with the
final contents of `self`. -/
def add (self other : Nat) : Except Error Unit × Nat :=
  match is_zero self, is_zero other with
  | true, true => (.ok (), self)
  | false, true => (.ok (), self)
  | true, false => (.ok (), other)
  | false, false =>
    match SecretKey.from_slice self with
    | .error e => (.error e, self)
    | .ok key_secret =>
      match SecretKey.from_slice other with
      | .error e => (.error e, self)
      | .ok other_secret =>
        match SecretKey.add_assign key_secret other_secret with
        | .error e => (.error e, self)
        | .ok r => (.ok (), r)

/-- The body of the source's `Secret::neg` (lines 197–208), with the
`MINUS_ONE_KEY` constant as the parameter `m1`: no-op on zero, otherwise
validate and multiply by the minus-one constant, assigning `self` only on
success.  (The constant is a parameter so that proofs stay symbolic;
`Secret.neg` instantiates it.) -/
def negP (m1 self : Nat) : Except Error Unit × Nat :=
  match is_zero self with
  | true => (.ok (), self)
  | false =>
    match SecretKey.from_slice self with
    | .error e => (.error e, self)
    | .ok key_secret =>
      match SecretKey.mul_assign key_secret m1 with
      | .error e => (.error e, self)
      | .ok r => (.ok (), r)

/-- The source's `Secret::neg`: `negP` at the `MINUS_ONE_KEY` constant. -/
def neg (self : Nat) : Except Error Unit × Nat := negP MINUS_ONE_KEY self

/-- The body of the source's `Secret::sub` (lines 138–156), with the
`MINUS_ONE_KEY` constant as the parameter `m1`.  In the `self = 0, other ≠ 0`
arm the code first copies `other` into `self` (`clone_from`) and only then
negates, so the state entering `neg` is `other`'s value.  The general arm
multiplies `other` by the minus-one constant and tweak-adds, assigning `self`
only on success. -/
def subP (m1 self other : Nat) : Except Error Unit × Nat :=
  match is_zero self, is_zero other with
  | true, true => (.ok (), self)
  | false, true => (.ok (), self)
  | true, false => negP m1 other
  | false, false =>
    match SecretKey.from_slice self with
    | .error e => (.error e, self)
    | .ok key_secret =>
      match SecretKey.from_slice other with
      | .error e => (.error e, self)
      | .ok other_secret =>
        match SecretKey.mul_assign other_secret m1 with
        | .error e => (.error e, self)
        | .ok negated =>
          match SecretKey.add_assign key_secret negated with
          | .error e => (.error e, self)
          | .ok r => (.ok (), r)

/-- The source's `Secret::sub`: `subP` at the `MINUS_ONE_KEY` constant. -/
def sub (self other : Nat) : Except Error Unit × Nat := subP MINUS_ONE_KEY self other

/-- The body of the source's `Secret::dec` (lines 159–174), with the
`MINUS_ONE_KEY` constant as the parameter `m1`: a zero secret becomes the
minus-one constant (the `expect` on a known-good constant never fires),
otherwise a tweak-add of the constant. -/
def decP (m1 self : Nat) : Except Error Unit × Nat :=
  match is_zero self with
  | true => (.ok (), m1)
  | false =>
    match SecretKey.from_slice self with
    | .error e => (.error e, self)
    | .ok key_secret =>
      match SecretKey.add_assign key_secret m1 with
      | .error e => (.error e, self)
      | .ok r => (.ok (), r)

/-- The source's `Secret::dec`: `decP` at the `MINUS_ONE_KEY` constant. -/
def dec (self : Nat) : Except Error Unit × Nat := decP MINUS_ONE_KEY self

/-- The source's `Secret::mul` (lines 177–194). -/
def mul (self other : Nat) : Except Error Unit × Nat :=
  match is_zero self, is_zero other with
  | true, true => (.ok (), self)
  | true, false => (.ok (), self)
  | false, true => (.ok (), 0)
  | false, false =>
    match SecretKey.from_slice self with
    | .error e => (.error e, self)
    | .ok key_secret =>
      match SecretKey.from_slice other with
      | .error e => (.error e, self)
      | .ok other_secret =>
        match SecretKey.mul_assign key_secret other_secret with
        | .error e => (.error e, self)
        | .ok r => (.ok (), r)

/-- The `for _ in 1..pow { self.mul(&c)?; }` loop of `Secret::pow`: `m`
remaining iterations of in-place multiplication by the entry snapshot `c`; an
error aborts the loop, leaving `self` at the state the failing `mul` reported. -/
def powLoop (c : Nat) : Nat → Nat → Except Error Unit × Nat
  | 0, self => (.ok (), self)
  | m + 1, self =>
    match mul self c with
    | (.ok _, s) => powLoop c m s
    | (.error e, s) => (.error e, s)

/-- The source's `Secret::pow` (lines 211–228): early-return on a zero secret;
`pow 0` assigns `ONE_KEY`; `pow 1` is a no-op; otherwise `pow - 1`
multiplications against the clone taken at entry. -/
def pow (self : Nat) (power : Nat) : Except Error Unit × Nat :=
  match is_zero self with
  | true => (.ok (), self)
  | false =>
    match power with
    | 0 => (.ok (), 1)
    | 1 => (.ok (), self)
    | _ => powLoop self (power - 1) self

end Secret

/-! ### Formatting of `Secret` (`Debug`, `Display`) and hex parsing -/

namespace Secret

/-- Byte `i` (0-based, big-endian) of the 32-byte buffer holding value `s`:
`self.inner[i]`. -/
def byteAt (s i : Nat) : Nat := s / 2 ^ (8 * (31 - i)) % 256

/-- Lowercase hexadecimal digit for a value below 16. -/
def hexDigit (v : Nat) : Char :=
  if v < 10 then Char.ofNat (48 + v) else Char.ofNat (87 + v)

/-- The two-digit (zero-padded) lowercase hex rendering of one byte, as used by
the full `LowerHex` rendering of an `H256` ("{:02x}" per byte). -/
def byteHexPadded (b : Nat) : List Char := [hexDigit (b / 16), hexDigit (b % 16)]

/-- The unpadded "{:x}" rendering of one byte (`u8`), as used by the custom
`Display` of `Secret`: a single digit when the byte is below 16. -/
def byteHexShort (b : Nat) : List Char :=
  if b < 16 then [hexDigit b] else byteHexPadded b

/-- Modelled from the spec: the `fmt::Debug` of the inner 256-bit hash type
`H256` (crate `ethereum-types` / `fixed-hash` of this repository, not under
`src/`) renders the alternate `LowerHex` form `{:#x}`: the `0x` prefix
followed by the full 64-character lowercase hex of all 32 bytes.  This is the
same digit string whose unprefixed form the spec pins down for `to_hex`
("lowercase hex, no `0x` prefix, 64 chars", §4.1), here with the `0x`
prefix. -/
def h256DebugFmt (s : Nat) : String :=
  ⟨'0' :: 'x' :: (List.range 32).flatMap (fun i => byteHexPadded (byteAt s i))⟩

/-- The source's `impl fmt::Debug for Secret` (lines 56–60): it delegates to
the `Debug` formatting of `self.inner`, i.e. the full `H256` rendering. -/
def debugFmt (s : Nat) : String := h256DebugFmt s

/-- The source's `impl fmt::Display for Secret` (lines 62–66):
`"Secret: 0x{:x}{:x}..{:x}{:x}"` applied to bytes 0, 1, 30 and 31. -/
def displayFmt (s : Nat) : String :=
  "Secret: 0x" ++ ⟨byteHexShort (byteAt s 0) ++ byteHexShort (byteAt s 1)⟩
    ++ ".." ++ ⟨byteHexShort (byteAt s 30) ++ byteHexShort (byteAt s 31)⟩

/-- Value of one hex character, if it is a hex digit. -/
def hexCharVal (c : Char) : Option Nat :=
  if 48 ≤ c.toNat ∧ c.toNat ≤ 57 then some (c.toNat - 48)
  else if 97 ≤ c.toNat ∧ c.toNat ≤ 102 then some (c.toNat - 87)
  else if 65 ≤ c.toNat ∧ c.toNat ≤ 70 then some (c.toNat - 55)
  else none

/-- Accumulate hex digits big-endian; `none` on the first non-hex character. -/
def hexAccum : List Char → Nat → Option Nat
  | [], acc => some acc
  | c :: cs, acc =>
    match hexCharVal c with
    | some v => hexAccum cs (acc * 16 + v)
    | none => none

/-- The possible parse failures of the dependency's hex parser, carried into
`Error::Custom` through `format!("{:?}", e)`. -/
inductive H256ParseFailure where
  | InvalidLength : H256ParseFailure
  | InvalidCharacter : H256ParseFailure
deriving DecidableEq

/-- The `format!("{:?}", e)` rendering of a parse failure. -/
def H256ParseFailure.debugMsg : H256ParseFailure → String
  | .InvalidLength => "Invalid input length"
  | .InvalidCharacter => "Invalid character"

/-- Modelled from the spec: `H256::from_str` (dependency `ethereum-types`, not
under `src/`) "accepts a hex big endian representation" of exactly 32 bytes
(spec §4.1 `copy_from_hex`): exactly 64 hex characters, value accumulated
big-endian; any other input fails. -/
def h256FromStr (s : String) : Except H256ParseFailure Nat :=
  if s.data.length ≠ 64 then .error .InvalidLength
  else
    match hexAccum s.data 0 with
    | some v => .ok v
    | none => .error .InvalidCharacter

/-- The source's `Secret::copy_from_str` (lines 84–89): parse via
`H256::from_str`, mapping any parse error `e` to
`Error::Custom(format!("{:?}", e))`, then swap the parsed buffer into a fresh
zero secret.  The final secret holds the parsed value. -/
def copy_from_str (s : String) : Except Error Nat :=
  match h256FromStr s with
  | .error e => .error (.Custom e.debugMsg)
  | .ok h => .ok h

end Secret

/-! ### Arithmetic facts about the curve-layer model -/

theorem secpOrder_pos : 0 < secpOrder := by norm_num [secpOrder]

theorem one_lt_secpOrder : 1 < secpOrder := by norm_num [secpOrder]

/-- Primality of the group order rules out zero products of valid scalars. -/
theorem mul_mod_ne_zero {a b : Nat} (ha : 0 < a) (ha' : a < secpOrder)
    (hb : 0 < b) (hb' : b < secpOrder) : a * b % secpOrder ≠ 0 := by
  intro h
  rcases (secpOrder_prime.dvd_mul).mp (Nat.dvd_of_mod_eq_zero h) with h' | h'
  · exact absurd (Nat.le_of_dvd ha h') (by omega)
  · exact absurd (Nat.le_of_dvd hb h') (by omega)

theorem from_slice_valid {a : Nat} (ha : 0 < a) (ha' : a < secpOrder) :
    SecretKey.from_slice a = .ok a := by
  unfold SecretKey.from_slice
  rw [if_neg (by simp only [Bool.or_eq_true, beq_iff_eq, Nat.ble_eq]; omega)]

/-- Multiplying a valid scalar by the minus-one constant yields its additive
inverse `n - b`. -/
theorem mul_minus_one_mod {b : Nat} (hb : 0 < b) (hb' : b < secpOrder) :
    b * (secpOrder - 1) % secpOrder = secpOrder - b := by
  have h1 : b * (secpOrder - 1) = (secpOrder - 1) * b := Nat.mul_comm _ _
  have h2 : (secpOrder - 1) * b = secpOrder * b - b := by
    rw [Nat.sub_one_mul]
  have h3 : secpOrder * (b - 1) = secpOrder * b - secpOrder := by
    rw [← Nat.pred_eq_sub_one]
    exact Nat.mul_pred _ _
  have h4 : secpOrder ≤ secpOrder * b := Nat.le_mul_of_pos_right _ hb
  have h5 : secpOrder * b - b = secpOrder * (b - 1) + (secpOrder - b) := by omega
  rw [h1, h2, h5, Nat.mul_add_mod]
  exact Nat.mod_eq_of_lt (by omega)

theorem mul_assign_minus_one {b m1 : Nat} (hm : m1 = secpOrder - 1)
    (hb : 0 < b) (hb' : b < secpOrder) :
    SecretKey.mul_assign b m1 = .ok (secpOrder - b) := by
  unfold SecretKey.mul_assign
  rw [if_neg (by
      have h2 := one_lt_secpOrder
      simp only [Bool.or_eq_true, beq_iff_eq, Nat.ble_eq]
      omega),
    if_neg (by
      simp only [beq_iff_eq]
      rw [hm, mul_minus_one_mod hb hb']
      omega),
    hm, mul_minus_one_mod hb hb']

/-! ### Behaviour of `Secret::mul`, `powLoop` and `Secret::pow` on valid scalars -/

theorem is_zero_false {a : Nat} (ha : 0 < a) : Secret.is_zero a = false := by
  simp [Secret.is_zero]
  omega

theorem secret_mul_valid {a b : Nat} (ha : 0 < a) (ha' : a < secpOrder)
    (hb : 0 < b) (hb' : b < secpOrder) :
    Secret.mul a b = (.ok (), a * b % secpOrder) := by
  unfold Secret.mul
  rw [is_zero_false ha, is_zero_false hb]
  simp only [from_slice_valid ha ha', from_slice_valid hb hb']
  unfold SecretKey.mul_assign
  rw [if_neg (by simp only [Bool.or_eq_true, beq_iff_eq, Nat.ble_eq]; omega),
    if_neg (by simp only [beq_iff_eq]; exact mul_mod_ne_zero ha ha' hb hb')]

theorem secret_powLoop_valid {a : Nat} (ha : 0 < a) (ha' : a < secpOrder) :
    ∀ m s, 0 < s → s < secpOrder →
      Secret.powLoop a m s = (.ok (), s * a ^ m % secpOrder) := by
  intro m
  induction m with
  | zero =>
    intro s hs hs'
    simp [Secret.powLoop, Nat.mod_eq_of_lt hs']
  | succ m ih =>
    intro s hs hs'
    rw [Secret.powLoop]
    simp only [secret_mul_valid hs hs' ha ha']
    have h1 : 0 < s * a % secpOrder :=
      Nat.pos_of_ne_zero (mul_mod_ne_zero hs hs' ha ha')
    have h2 : s * a % secpOrder < secpOrder := Nat.mod_lt _ secpOrder_pos
    rw [ih _ h1 h2]
    have hv : s * a % secpOrder * a ^ m % secpOrder = s * a ^ (m + 1) % secpOrder := by
      rw [Nat.mod_mul_mod, pow_succ]
      ring_nf
    rw [hv]

theorem secret_pow_valid {a : Nat} (ha : 0 < a) (ha' : a < secpOrder) (k : Nat) :
    Secret.pow a k = (.ok (), a ^ k % secpOrder) := by
  unfold Secret.pow
  rw [is_zero_false ha]
  match k with
  | 0 =>
    have h1 : a ^ 0 % secpOrder = 1 := by
      rw [pow_zero]
      exact Nat.mod_eq_of_lt one_lt_secpOrder
    rw [h1]
  | 1 =>
    have h1 : a ^ 1 % secpOrder = a := by
      rw [pow_one]
      exact Nat.mod_eq_of_lt ha'
    rw [h1]
  | (m + 2) =>
    show Secret.powLoop a (m + 2 - 1) a = _
    have hidx : m + 2 - 1 = m + 1 := by omega
    rw [hidx, secret_powLoop_valid ha ha' _ _ ha ha', ← pow_succ']

/-- **C4**: `pow` satisfies its contract.  For every valid non-zero secret `a`
(`0 < a < n`): `pow(a, 0) = 1`, `pow(a, 1) = a`, and for every `k ≥ 2`
`pow(a, k) = a * pow(a, k-1) mod n` (the code computes it by `k - 1`
self-multiplications against the entry snapshot), all returning ok; and for
the zero secret, `pow` returns ok and leaves the secret zero for every
`k ≥ 0`, including `k = 0`. -/
theorem secret_pow_contract (a : Nat) (ha : 0 < a) (ha' : a < secpOrder) :
    Secret.pow a 0 = (.ok (), 1) ∧
    Secret.pow a 1 = (.ok (), a) ∧
    (∀ k, 2 ≤ k →
      Secret.pow a k = (.ok (), a * (Secret.pow a (k - 1)).2 % secpOrder)) ∧
    (∀ k, Secret.pow 0 k = (.ok (), 0)) := by
  refine ⟨?_, ?_, ?_, ?_⟩
  · unfold Secret.pow
    rw [is_zero_false ha]
  · unfold Secret.pow
    rw [is_zero_false ha]
  · intro k hk
    have h2 : (Secret.pow a (k - 1)).2 = a ^ (k - 1) % secpOrder := by
      rw [secret_pow_valid ha ha' (k - 1)]
    have hval : a * (a ^ (k - 1) % secpOrder) % secpOrder = a ^ k % secpOrder := by
      have hk1 : k - 1 + 1 = k := by omega
      rw [Nat.mul_mod_mod, ← pow_succ', hk1]
    rw [secret_pow_valid ha ha' k, h2, hval]
  · intro k
    rfl

/-- Witness for the `pow` contract at `a = 3`, `k = 5`. -/
theorem secret_pow_contract_witness :
    Secret.pow 3 5 = (.ok (), 3 * (Secret.pow 3 4).2 % secpOrder) :=
  (secret_pow_contract 3 (by norm_num) (by norm_num [secpOrder])).2.2.1 5 (by norm_num)

/-! ### Shapes of the results of the `Secret` operations -/

theorem add_cases (self other : Nat) :
    (∃ r, Secret.add self other = (.ok (), r)) ∨
      (∃ e, Secret.add self other = (.error e, self)) := by
  unfold Secret.add
  repeat' split
  all_goals first
    | exact Or.inl ⟨_, rfl⟩
    | exact Or.inr ⟨_, rfl⟩

theorem mul_cases (self other : Nat) :
    (∃ r, Secret.mul self other = (.ok (), r)) ∨
      (∃ e, Secret.mul self other = (.error e, self)) := by
  unfold Secret.mul
  repeat' split
  all_goals first
    | exact Or.inl ⟨_, rfl⟩
    | exact Or.inr ⟨_, rfl⟩

theorem negP_cases (m1 self : Nat) :
    (∃ r, Secret.negP m1 self = (.ok (), r)) ∨
      (∃ e, Secret.negP m1 self = (.error e, self)) := by
  unfold Secret.negP
  repeat' split
  all_goals first
    | exact Or.inl ⟨_, rfl⟩
    | exact Or.inr ⟨_, rfl⟩

theorem neg_cases (self : Nat) :
    (∃ r, Secret.neg self = (.ok (), r)) ∨
      (∃ e, Secret.neg self = (.error e, self)) :=
  negP_cases MINUS_ONE_KEY self

theorem minus_one_key_eq : MINUS_ONE_KEY = secpOrder - 1 := rfl

theorem minus_one_key_lt : MINUS_ONE_KEY < secpOrder := by
  unfold MINUS_ONE_KEY
  have := secpOrder_pos
  omega

theorem decP_cases (m1 self : Nat) :
    (∃ r, Secret.decP m1 self = (.ok (), r)) ∨
      (∃ e, Secret.decP m1 self = (.error e, self)) := by
  unfold Secret.decP
  repeat' split
  all_goals first
    | exact Or.inl ⟨_, rfl⟩
    | exact Or.inr ⟨_, rfl⟩

theorem dec_cases (self : Nat) :
    (∃ r, Secret.dec self = (.ok (), r)) ∨
      (∃ e, Secret.dec self = (.error e, self)) :=
  decP_cases MINUS_ONE_KEY self

theorem negP_valid {m1 b : Nat} (hm : m1 = secpOrder - 1) (hb : 0 < b)
    (hb' : b < secpOrder) :
    Secret.negP m1 b = (.ok (), secpOrder - b) := by
  unfold Secret.negP
  rw [is_zero_false hb]
  simp only [from_slice_valid hb hb', mul_assign_minus_one hm hb hb']

theorem secret_neg_valid {b : Nat} (hb : 0 < b) (hb' : b < secpOrder) :
    Secret.neg b = (.ok (), secpOrder - b) :=
  negP_valid minus_one_key_eq hb hb'

theorem negP_invalid {m1 b : Nat} (hb : 0 < b) (hb' : secpOrder ≤ b) :
    Secret.negP m1 b = (.error .InvalidSecretKey, b) := by
  unfold Secret.negP
  rw [is_zero_false hb]
  unfold SecretKey.from_slice
  rw [if_pos (by simp only [Bool.or_eq_true, beq_iff_eq, Nat.ble_eq]; omega)]

theorem secret_neg_invalid {b : Nat} (hb : 0 < b) (hb' : secpOrder ≤ b) :
    Secret.neg b = (.error .InvalidSecretKey, b) :=
  negP_invalid hb hb'

theorem subP_zero_other (m1 self other : Nat) (hz : self = 0) (ho : 0 < other) :
    Secret.subP m1 self other = Secret.negP m1 other := by
  subst hz
  unfold Secret.subP
  rw [show Secret.is_zero 0 = true from rfl, is_zero_false ho]

theorem sub_zero_other (self other : Nat) (hz : self = 0) (ho : 0 < other) :
    Secret.sub self other = Secret.neg other :=
  subP_zero_other MINUS_ONE_KEY self other hz ho

theorem subP_nonzero_cases {self : Nat} (m1 other : Nat) (h : 0 < self) :
    (∃ r, Secret.subP m1 self other = (.ok (), r)) ∨
      (∃ e, Secret.subP m1 self other = (.error e, self)) := by
  unfold Secret.subP
  rw [is_zero_false h]
  repeat' split
  all_goals first
    | exact Or.inl ⟨_, rfl⟩
    | exact Or.inr ⟨_, rfl⟩
    | simp_all

theorem sub_nonzero_cases {self : Nat} (other : Nat) (h : 0 < self) :
    (∃ r, Secret.sub self other = (.ok (), r)) ∨
      (∃ e, Secret.sub self other = (.error e, self)) :=
  subP_nonzero_cases MINUS_ONE_KEY other h

/-! ### C1: error atomicity of the `Secret` operations -/

theorem secret_mul_invalid_left {a b : Nat} (ha : 0 < a) (ha' : secpOrder ≤ a)
    (hb : 0 < b) : Secret.mul a b = (.error .InvalidSecretKey, a) := by
  unfold Secret.mul
  rw [is_zero_false ha, is_zero_false hb]
  unfold SecretKey.from_slice
  rw [if_pos (by simp only [Bool.or_eq_true, beq_iff_eq, Nat.ble_eq]; omega)]

theorem secret_pow_cases (self k : Nat) :
    (∃ r, Secret.pow self k = (.ok (), r)) ∨
      (∃ e, Secret.pow self k = (.error e, self)) := by
  by_cases hz : self = 0
  · subst hz
    exact Or.inl ⟨0, rfl⟩
  · have hpos : 0 < self := Nat.pos_of_ne_zero hz
    by_cases hv : self < secpOrder
    · exact Or.inl ⟨_, secret_pow_valid hpos hv k⟩
    · match k with
      | 0 =>
        refine Or.inl ⟨1, ?_⟩
        unfold Secret.pow
        rw [is_zero_false hpos]
      | 1 =>
        refine Or.inl ⟨self, ?_⟩
        unfold Secret.pow
        rw [is_zero_false hpos]
      | (m + 2) =>
        refine Or.inr ⟨.InvalidSecretKey, ?_⟩
        have hp : Secret.pow self (m + 2) = Secret.powLoop self (m + 2 - 1) self := by
          unfold Secret.pow
          rw [is_zero_false hpos]
          rfl
        rw [hp, show m + 2 - 1 = m + 1 from rfl, Secret.powLoop,
          secret_mul_invalid_left hpos (Nat.not_lt.mp hv) hpos]

/-- **C1** (amended): every `Secret` arithmetic operation except the
`self = 0, other ≠ 0` path of `sub` is error-atomic — a returned error leaves
`self` exactly as it was before the call.  In that one remaining `sub` path
the source first copies `other` into `self` (`clone_from`, line 142) and only
then calls the fallible `neg`, so a failing call leaves `self` holding
`other`'s bytes instead of its original zero. -/
theorem secret_ops_error_atomicity (self other k : Nat) :
    (∀ e, (Secret.add self other).1 = .error e → (Secret.add self other).2 = self) ∧
    (∀ e, (Secret.mul self other).1 = .error e → (Secret.mul self other).2 = self) ∧
    (∀ e, (Secret.neg self).1 = .error e → (Secret.neg self).2 = self) ∧
    (∀ e, (Secret.dec self).1 = .error e → (Secret.dec self).2 = self) ∧
    (∀ e, (Secret.pow self k).1 = .error e → (Secret.pow self k).2 = self) ∧
    (0 < self → ∀ e, (Secret.sub self other).1 = .error e →
      (Secret.sub self other).2 = self) ∧
    (self = 0 → 0 < other → ∀ e, (Secret.sub self other).1 = .error e →
      (Secret.sub self other).2 = other) := by
  refine ⟨?_, ?_, ?_, ?_, ?_, ?_, ?_⟩
  · intro e he
    rcases add_cases self other with ⟨r, h⟩ | ⟨e', h⟩
    · rw [h] at he
      exact absurd he (by simp)
    · rw [h]
  · intro e he
    rcases mul_cases self other with ⟨r, h⟩ | ⟨e', h⟩
    · rw [h] at he
      exact absurd he (by simp)
    · rw [h]
  · intro e he
    rcases neg_cases self with ⟨r, h⟩ | ⟨e', h⟩
    · rw [h] at he
      exact absurd he (by simp)
    · rw [h]
  · intro e he
    rcases dec_cases self with ⟨r, h⟩ | ⟨e', h⟩
    · rw [h] at he
      exact absurd he (by simp)
    · rw [h]
  · intro e he
    rcases secret_pow_cases self k with ⟨r, h⟩ | ⟨e', h⟩
    · rw [h] at he
      exact absurd he (by simp)
    · rw [h]
  · intro hs e he
    rcases sub_nonzero_cases other hs with ⟨r, h⟩ | ⟨e', h⟩
    · rw [h] at he
      exact absurd he (by simp)
    · rw [h]
  · intro hz ho e he
    rw [sub_zero_other self other hz ho] at he ⊢
    rcases neg_cases other with ⟨r, h⟩ | ⟨e', h⟩
    · rw [h] at he
      exact absurd he (by simp)
    · rw [h]

/-- Witness for the atomicity theorem: `add` on `1` and the minus-one constant
fails (the sum is `0 mod n`) and leaves `self = 1` untouched. -/
theorem secret_ops_error_atomicity_witness :
    (Secret.add 1 MINUS_ONE_KEY).2 = 1 :=
  (secret_ops_error_atomicity 1 MINUS_ONE_KEY 0).1 .InvalidSecretKey (by rfl)

/-- **C1** counterexample: `sub` on a zero `self` and the out-of-range
non-zero `other = n` fails, yet leaves `self` holding `n` instead of the zero
bytes it held before the call — the claimed atomicity is violated on the
`self = 0, other ≠ 0` path of `sub`. -/
theorem secret_sub_not_atomic :
    Secret.sub 0 secpOrder = (.error .InvalidSecretKey, secpOrder) ∧
      secpOrder ≠ 0 :=
  ⟨rfl, by decide⟩

/-! ### C6: the `sub` contract -/

theorem sub_mod_ne_zero {self other : Nat} (hs : 0 < self) (hs' : self < secpOrder)
    (ho : 0 < other) (ho' : other < secpOrder) (hne : self ≠ other) :
    (self + (secpOrder - other)) % secpOrder ≠ 0 := by
  rcases Nat.lt_or_ge self other with h | h
  · rw [Nat.mod_eq_of_lt (by omega)]
    omega
  · have h2 : self + (secpOrder - other) = secpOrder + (self - other) := by omega
    rw [h2, Nat.add_mod_left, Nat.mod_eq_of_lt (by omega)]
    omega

theorem subP_general_valid {m1 self other : Nat} (hm : m1 = secpOrder - 1)
    (hs : 0 < self) (hs' : self < secpOrder) (ho : 0 < other)
    (ho' : other < secpOrder) (hne : self ≠ other) :
    Secret.subP m1 self other = (.ok (), (self + (secpOrder - other)) % secpOrder) := by
  unfold Secret.subP
  rw [is_zero_false hs, is_zero_false ho]
  simp only [from_slice_valid hs hs', from_slice_valid ho ho',
    mul_assign_minus_one hm ho ho']
  unfold SecretKey.add_assign
  rw [if_neg (by simp only [Nat.ble_eq]; omega),
    if_neg (by simp only [beq_iff_eq]; exact sub_mod_ne_zero hs hs' ho ho' hne)]

theorem sub_other_zero (self : Nat) : Secret.sub self 0 = (.ok (), self) := by
  by_cases hz : self = 0
  · subst hz
    rfl
  · unfold Secret.sub Secret.subP
    rw [is_zero_false (Nat.pos_of_ne_zero hz)]
    rfl

theorem sub_mod_int_eq {self other : Nat} (hs' : self < secpOrder)
    (ho' : other ≤ secpOrder) :
    (((self + (secpOrder - other)) % secpOrder : Nat) : Int) =
      ((self : Int) - other) % secpOrder := by
  push_cast [ho']
  rw [show (self : Int) + ((secpOrder : Int) - other) =
      ((self : Int) - other) + (secpOrder : Int) * 1 by ring,
    Int.add_mul_emod_self_left]

/-- **C6** (amended): the `sub` contract, with the general case restricted to
in-range operands with distinct values.  When `self = 0` and `other ≠ 0`,
`sub` behaves as `neg` applied to `other`'s value; when `other = 0` it is a
no-op returning ok; for valid distinct scalars the result is the exact integer
difference modulo the group order, computed as `self + (other · (n-1)) mod n`.
When the operands are equal (difference `0 mod n`) the final tweak-add fails
instead of producing the zero scalar the claim promises. -/
theorem secret_sub_contract (self other : Nat) :
    (self = 0 → 0 < other → Secret.sub self other = Secret.neg other) ∧
    (other = 0 → Secret.sub self other = (.ok (), self)) ∧
    (0 < self → self < secpOrder → 0 < other → other < secpOrder → self ≠ other →
      Secret.sub self other =
        (.ok (), (((self : Int) - other) % (secpOrder : Int)).toNat)) := by
  refine ⟨fun hz ho => sub_zero_other self other hz ho, ?_, ?_⟩
  · intro ho
    subst ho
    exact sub_other_zero self
  · intro hs hs' ho ho' hne
    have h := subP_general_valid minus_one_key_eq hs hs' ho ho' hne
    have hv : ((self + (secpOrder - other)) % secpOrder) =
        (((self : Int) - other) % (secpOrder : Int)).toNat := by
      rw [← sub_mod_int_eq hs' ho'.le, Int.toNat_natCast]
    show Secret.subP MINUS_ONE_KEY self other = _
    rw [h, hv]

/-- Witness for the `sub` contract at `self = 5`, `other = 2`. -/
theorem secret_sub_contract_witness :
    Secret.sub 5 2 =
      (.ok (), ((((5 : Nat) : Int) - ((2 : Nat) : Int)) % (secpOrder : Int)).toNat) :=
  (secret_sub_contract 5 2).2.2 (by norm_num) (by norm_num [secpOrder])
    (by norm_num) (by norm_num [secpOrder]) (by norm_num)

/-- **C6** counterexample: `sub` on the equal non-zero scalars `1` and `1`
(integer difference `0 mod n`) fails with `InvalidSecretKey` instead of
assigning the promised `(self - other) mod n = 0`. -/
theorem secret_sub_zero_difference_fails :
    Secret.sub 1 1 = (.error .InvalidSecretKey, 1) := rfl

/-! ### C2: `Debug` and `Display` formatting -/

/-- **C2** (amended): `Display` reveals only bytes 0, 1, 30 and 31 (it is a
congruence in those four bytes) and does not determine the key material;
`Debug` however delegates to the full `H256` rendering and prints all 32
bytes: it distinguishes secrets that agree on the four displayed bytes. -/
theorem secret_format_contract (a b : Nat) :
    (Secret.byteAt a 0 = Secret.byteAt b 0 → Secret.byteAt a 1 = Secret.byteAt b 1 →
      Secret.byteAt a 30 = Secret.byteAt b 30 →
      Secret.byteAt a 31 = Secret.byteAt b 31 →
      Secret.displayFmt a = Secret.displayFmt b) ∧
    Secret.displayFmt 0 = Secret.displayFmt (2 ^ 128) ∧
    Secret.debugFmt 0 ≠ Secret.debugFmt (2 ^ 128) := by
  refine ⟨?_, rfl, by decide⟩
  intro h0 h1 h30 h31
  unfold Secret.displayFmt
  rw [h0, h1, h30, h31]

/-- Witness: two secrets differing only in byte 15 render the same `Display`
string. -/
theorem secret_format_contract_witness :
    Secret.displayFmt 1 = Secret.displayFmt (2 ^ 128 + 1) :=
  (secret_format_contract 1 (2 ^ 128 + 1)).1 rfl rfl rfl rfl

/-- **C2** counterexample: the secrets `0` and `2^128` agree on bytes 0, 1,
30 and 31, yet their `Debug` renderings differ — `Debug` prints the full
32-byte hex, revealing more than the first two and last two bytes. -/
theorem secret_debug_full_leak :
    Secret.byteAt 0 0 = Secret.byteAt (2 ^ 128) 0 ∧
    Secret.byteAt 0 1 = Secret.byteAt (2 ^ 128) 1 ∧
    Secret.byteAt 0 30 = Secret.byteAt (2 ^ 128) 30 ∧
    Secret.byteAt 0 31 = Secret.byteAt (2 ^ 128) 31 ∧
    Secret.debugFmt 0 ≠ Secret.debugFmt (2 ^ 128) :=
  ⟨rfl, rfl, rfl, rfl, by decide⟩

/-! ### C5: `copy_from_str` error behaviour -/

/-- **C5** (amended): `copy_from_str` accepts exactly the strings that the
`H256` hex parser decodes (64 hex characters, big-endian); every failure is
reported as `Error::Custom` wrapping the parse failure's `{:?}` text — never
as the spec's `InvalidHex` variant. -/
theorem secret_copy_from_str_contract (s : String) :
    (∀ h, Secret.copy_from_str s = .ok h → Secret.h256FromStr s = .ok h) ∧
    (∀ e, Secret.copy_from_str s = .error e → e ≠ .InvalidHex ∧
      ∃ pe, e = Error.Custom (Secret.H256ParseFailure.debugMsg pe)) := by
  constructor
  · intro h hok
    unfold Secret.copy_from_str at hok
    cases hfs : Secret.h256FromStr s with
    | error pe =>
      rw [hfs] at hok
      simp at hok
    | ok v =>
      rw [hfs] at hok
      simp at hok
      rw [hok]
  · intro e he
    unfold Secret.copy_from_str at he
    cases hfs : Secret.h256FromStr s with
    | error pe =>
      rw [hfs] at he
      simp at he
      subst he
      exact ⟨by simp, ⟨pe, rfl⟩⟩
    | ok v =>
      rw [hfs] at he
      simp at he

/-- Witness: the contract applied to the empty string. -/
theorem secret_copy_from_str_contract_witness :
    Error.Custom "Invalid input length" ≠ Error.InvalidHex ∧
      ∃ pe, Error.Custom "Invalid input length" =
        Error.Custom (Secret.H256ParseFailure.debugMsg pe) :=
  (secret_copy_from_str_contract "").2 (.Custom "Invalid input length") rfl

/-- **C5** counterexample: the empty string does not decode to 32 bytes, and
`copy_from_str` fails with `Custom "Invalid input length"`, not with the
`InvalidHex` variant the claim names. -/
theorem secret_copy_from_str_not_invalid_hex :
    Secret.copy_from_str "" = .error (.Custom "Invalid input length") ∧
      Error.Custom "Invalid input length" ≠ Error.InvalidHex :=
  ⟨rfl, by simp⟩

/-!
## `triehash` (`src/triehash/src/lib.rs`)

The crate is generic over a `Hasher` (`H::hash : &[u8] → H::Out`) and a
`TrieStream` (`S::new/append_empty_data/append_leaf/append_extension/
begin_branch/append_value/append_substream/encode/out`).  Bytes are `Nat`s,
byte strings `List Nat`, and the two abstract interfaces become structures of
functions; a stream is threaded explicitly. -/

/-- The abstract `hashdb::Hasher`: just its `hash` function. -/
structure Hasher where
  hash : List Nat → List Nat

/-- The abstract `triestream::TrieStream` interface over a stream state `σ`,
with each `&mut self` method as a state-passing function.  `encode` is the
stream's `S::encode(&i)` used by `ordered_trie_root` for index keys. -/
structure TrieStreamOps (σ : Type) where
  new : σ
  append_empty_data : σ → σ
  append_leaf : σ → List Nat → List Nat → σ
  append_extension : σ → List Nat → σ
  begin_branch : σ → σ
  append_value : σ → List Nat → σ
  append_substream : σ → σ → σ
  encode : Nat → List Nat
  out : σ → List Nat

/-- The source's `shared_prefix_len` (lines 37–42): the position of the first
mismatch of the zipped slices, or `min` of the lengths when the shorter is a
prefix of the longer. -/
def shared_prefix_len : List Nat → List Nat → Nat
  | a :: as, b :: bs => if a = b then shared_prefix_len as bs + 1 else 0
  | _, _ => 0

/-- The fold of `build_trie` line 189: the length of the prefix shared by all
keys of the input, starting from the first key's length. -/
def sharedCount (key : List Nat) (rest : List (List Nat × List Nat)) : Nat :=
  rest.foldl (fun acc kv => min (shared_prefix_len key kv.1) acc) key.length

/-- Lexicographic strict order on byte (or nibble) strings: Rust's `Ord` on
`&[u8]`/`Vec<u8>`, the order of the `BTreeMap` in `trie_root`. -/
def bytesLt : List Nat → List Nat → Bool
  | [], [] => false
  | [], _ :: _ => true
  | _ :: _, [] => false
  | a :: as, b :: bs => if a < b then true else if b < a then false else bytesLt as bs

/-- One `BTreeMap::insert` into the map held as a key-sorted association
list: a later value replaces an earlier one under the same key. -/
def mapInsert (k v : List Nat) : List (List Nat × List Nat) → List (List Nat × List Nat)
  | [] => [(k, v)]
  | (k', v') :: rest =>
    if bytesLt k k' then (k, v) :: (k', v') :: rest
    else if k == k' then (k, v) :: rest
    else (k', v') :: mapInsert k v rest

/-- `input.into_iter().collect::<BTreeMap<_, _>>()` (line 101–103): fold the
pairs in order into the sorted map. -/
def toBTree (l : List (List Nat × List Nat)) : List (List Nat × List Nat) :=
  l.foldl (fun m kv => mapInsert kv.1 kv.2 m) []

/-- First lookup by key in the association list (the map's `get`). -/
def mapLookup : List (List Nat × List Nat) → List Nat → Option (List Nat)
  | [], _ => none
  | kv :: rest, k => if kv.1 == k then some kv.2 else mapLookup rest k

/-- The value of the last occurrence of `k` in the raw pair list: the mapping
the spec says `trie_root` depends on. -/
def lastAssocAux (P : List (List Nat × List Nat)) (k : List Nat)
    (acc : Option (List Nat)) : Option (List Nat) :=
  P.foldl (fun acc kv => if kv.1 == k then some kv.2 else acc) acc

/-- `lastAssoc P k`: `some v` when the last pair of `P` with key `k` carries
`v`, `none` when `k` does not occur. -/
def lastAssoc (P : List (List Nat × List Nat)) (k : List Nat) : Option (List Nat) :=
  lastAssocAux P k none

/-- The nibble expansion of lines 108–114: each byte `b` contributes
`b >> 4` and `b & 0x0F`, i.e. `b / 16` and `b % 16`. -/
def nibblesOf (bytes : List Nat) : List Nat :=
  bytes.flatMap (fun b => [b / 16, b % 16])

/-- Size measure of a trie input used for termination: every entry counts its
key length plus one. -/
def entriesSize (l : List (List Nat × List Nat)) : Nat :=
  (l.map (fun kv => kv.1.length + 1)).sum

/-- The `take_while(|(k, _)| k.as_ref()[cursor] == i).count()` of lines
226–231.  The source's indexing `k[cursor]` panics when out of bounds; this
total embedding reads the index through `List.getElem?` and treats an
out-of-bounds access as a failed predicate (the checked twin `countNibbleO`
below makes the panic observable, and C10 shows it unreachable). -/
def countNibble (l : List (List Nat × List Nat)) (cursor i : Nat) : Nat :=
  (l.takeWhile (fun kv =>
    match kv.1[cursor]? with
    | some n => n == i
    | none => false)).length

/-- The source's `build_trie` together with `build_trie_trampoline` (lines
162–272), indexed by explicit recursion fuel (every recursive call of the
source strictly increases `cursor`, which the slot loop's bounds check and
`sharedCount` keep at most the longest key length, so any fuel beyond
`entriesSize input + 1` is never exhausted — `trie_root` below passes
`entriesSize input + 2`).  Empty input appends empty data; a single entry
appends a leaf with the key remainder past `cursor`; multiple entries append
an extension node when the count of shared nibbles exceeds `cursor`,
otherwise a 17-slot branch node.  The trampoline (substream + `append_substream`)
is inlined at its two call sites.  The slot loop `for i in 0..16` of lines
215–247 is the fold over `List.range 16` carrying `(begin, stream)`; its
`break`-and-fill-empties fast path (lines 219–224) appends one empty node for
each remaining slot, which is what the per-slot step does once the input is
exhausted.  The source's panicking nibble index `k.as_ref()[cursor]` of the
slot loop lives inside `countNibble` above. -/
def build_trie {σ : Type} (ops : TrieStreamOps σ) :
    Nat → List (List Nat × List Nat) → Nat → σ → σ
  | 0, _, _, stream => stream
  | fuel + 1, input, cursor, stream =>
    match input with
    | [] => ops.append_empty_data stream
    | [kv] => ops.append_leaf stream (kv.1.drop cursor) kv.2
    | (key, value) :: _rest =>
      if cursor < sharedCount key _rest then
        ops.append_substream
          (ops.append_extension stream
            ((key.drop cursor).take (sharedCount key _rest - cursor)))
          (build_trie ops fuel input (sharedCount key _rest) ops.new)
      else
        let step : Nat × σ → Nat → Nat × σ := fun st i =>
          if input.length ≤ st.1 then (st.1, ops.append_empty_data st.2)
          else if countNibble (input.drop st.1) cursor i = 0 then
            (st.1, ops.append_empty_data st.2)
          else
            (st.1 + countNibble (input.drop st.1) cursor i,
              ops.append_substream st.2
                (build_trie ops fuel
                  ((input.drop st.1).take (countNibble (input.drop st.1) cursor i))
                  (cursor + 1) ops.new))
        let fin := (List.range 16).foldl step
          ((if cursor == key.length then 1 else 0), ops.begin_branch stream)
        if cursor == key.length then ops.append_value fin.2 value
        else ops.append_empty_data fin.2

/-- The source's `trie_root` (lines 92–125): sort and deduplicate through the
`BTreeMap`, expand each key to nibbles (the `nibbles`/`lens` windows of lines
105–119 slice the flat nibble buffer back into one slice per key), build the
trie into a fresh stream and hash the stream's output. -/
def trie_root {σ : Type} (H : Hasher) (ops : TrieStreamOps σ)
    (input : List (List Nat × List Nat)) : List Nat :=
  let nibbled := (toBTree input).map (fun kv => (nibblesOf kv.1, kv.2))
  H.hash (ops.out (build_trie ops (entriesSize nibbled + 2) nibbled 0 ops.new))

/-- The source's `sec_trie_root` (lines 148–158): `trie_root` over the pairs
with each key replaced by its hash. -/
def sec_trie_root {σ : Type} (H : Hasher) (ops : TrieStreamOps σ)
    (input : List (List Nat × List Nat)) : List Nat :=
  trie_root H ops (input.map (fun kv => (H.hash kv.1, kv.2)))

/-- Rust's `Iterator::enumerate` starting at `i`. -/
def enumFrom (i : Nat) : List (List Nat) → List (Nat × List Nat)
  | [] => []
  | v :: rest => (i, v) :: enumFrom (i + 1) rest

/-- The source's `ordered_trie_root` (lines 60–69): `trie_root` over the
enumerated values, each index key encoded by the stream (`S::encode(&i)`). -/
def ordered_trie_root {σ : Type} (H : Hasher) (ops : TrieStreamOps σ)
    (input : List (List Nat)) : List Nat :=
  trie_root H ops ((enumFrom 0 input).map (fun p => (ops.encode p.1, p.2)))

/-! ### Order theory of `bytesLt` and the sorted association-list map -/

theorem bytesLt_irrefl (l : List Nat) : bytesLt l l = false := by
  induction l with
  | nil => rfl
  | cons a as ih => simp [bytesLt, ih]

theorem bytesLt_trans {a : List Nat} : ∀ {b c : List Nat}, bytesLt a b = true →
    bytesLt b c = true → bytesLt a c = true := by
  induction a with
  | nil =>
    intro b c hab hbc
    cases b with
    | nil => simp [bytesLt] at hab
    | cons y ys =>
      cases c with
      | nil => simp [bytesLt] at hbc
      | cons z zs => simp [bytesLt]
  | cons x xs ih =>
    intro b c hab hbc
    cases b with
    | nil => simp [bytesLt] at hab
    | cons y ys =>
      cases c with
      | nil => simp [bytesLt] at hbc
      | cons z zs =>
        simp only [bytesLt] at hab hbc ⊢
        rcases Nat.lt_trichotomy x y with h1 | h1 | h1
        · rcases Nat.lt_trichotomy y z with h2 | h2 | h2
          · rw [if_pos (Nat.lt_trans h1 h2)]
          · subst h2
            rw [if_pos h1]
          · rw [if_neg (by omega), if_pos h2] at hbc
            exact absurd hbc (by simp)
        · subst h1
          rw [if_neg (by omega), if_neg (by omega)] at hab
          rcases Nat.lt_trichotomy x z with h2 | h2 | h2
          · rw [if_pos h2]
          · subst h2
            rw [if_neg (by omega), if_neg (by omega)] at hbc
            rw [if_neg (by omega), if_neg (by omega)]
            exact ih hab hbc
          · rw [if_neg (by omega), if_pos h2] at hbc
            exact absurd hbc (by simp)
        · rw [if_neg (by omega), if_pos h1] at hab
          exact absurd hab (by simp)

theorem bytesLt_trichotomy : ∀ (a b : List Nat),
    bytesLt a b = true ∨ a = b ∨ bytesLt b a = true := by
  intro a
  induction a with
  | nil =>
    intro b
    cases b <;> simp [bytesLt]
  | cons x xs ih =>
    intro b
    cases b with
    | nil => simp [bytesLt]
    | cons y ys =>
      rcases Nat.lt_trichotomy x y with h | h | h
      · exact Or.inl (by simp [bytesLt, h])
      · subst h
        rcases ih ys with h' | h' | h'
        · exact Or.inl (by simp [bytesLt, h'])
        · exact Or.inr (Or.inl (by rw [h']))
        · exact Or.inr (Or.inr (by simp [bytesLt, h']))
      · exact Or.inr (Or.inr (by simp [bytesLt, h]))

theorem bytesLt_take_lt : ∀ (l : List Nat) (n : Nat), n < l.length →
    bytesLt (l.take n) l = true := by
  intro l
  induction l with
  | nil =>
    intro n h
    simp at h
  | cons a as ih =>
    intro n h
    cases n with
    | zero => simp [bytesLt]
    | succ m =>
      simp only [List.take_succ_cons, bytesLt]
      rw [if_neg (by omega), if_neg (by omega)]
      exact ih m (by simpa using h)

theorem mem_mapInsert {k v : List Nat} :
    ∀ {m : List (List Nat × List Nat)} {x}, x ∈ mapInsert k v m →
      x = (k, v) ∨ x ∈ m := by
  intro m
  induction m with
  | nil =>
    intro x hx
    simp [mapInsert] at hx
    exact Or.inl hx
  | cons kv rest ih =>
    intro x hx
    simp only [mapInsert] at hx
    by_cases h1 : bytesLt k kv.1 = true
    · rw [if_pos h1] at hx
      rcases List.mem_cons.mp hx with hx | hx
      · exact Or.inl hx
      · exact Or.inr hx
    · rw [if_neg h1] at hx
      by_cases h2 : (k == kv.1) = true
      · rw [if_pos h2] at hx
        rcases List.mem_cons.mp hx with hx | hx
        · exact Or.inl hx
        · exact Or.inr (by simp [hx])
      · rw [if_neg h2] at hx
        rcases List.mem_cons.mp hx with hx | hx
        · exact Or.inr (by simp [hx])
        · rcases ih hx with hx' | hx'
          · exact Or.inl hx'
          · exact Or.inr (by simp [hx'])

theorem mapInsert_pairwise {k v : List Nat} {m : List (List Nat × List Nat)}
    (hm : m.Pairwise (fun a b => bytesLt a.1 b.1 = true)) :
    (mapInsert k v m).Pairwise (fun a b => bytesLt a.1 b.1 = true) := by
  induction m with
  | nil => simp [mapInsert]
  | cons kv rest ih =>
    rw [List.pairwise_cons] at hm
    obtain ⟨hhead, hrest⟩ := hm
    simp only [mapInsert]
    by_cases h1 : bytesLt k kv.1 = true
    · rw [if_pos h1, List.pairwise_cons]
      refine ⟨?_, List.pairwise_cons.mpr ⟨hhead, hrest⟩⟩
      intro b hb
      rcases List.mem_cons.mp hb with hb | hb
      · subst hb
        exact h1
      · exact bytesLt_trans h1 (hhead b hb)
    · rw [if_neg h1]
      by_cases h2 : (k == kv.1) = true
      · rw [if_pos h2, List.pairwise_cons]
        have hk : k = kv.1 := by simpa using h2
        exact ⟨fun b hb => by rw [hk]; exact hhead b hb, hrest⟩
      · rw [if_neg h2, List.pairwise_cons]
        have h3 : bytesLt kv.1 k = true := by
          rcases bytesLt_trichotomy k kv.1 with h | h | h
          · exact absurd h h1
          · exact absurd h (by simpa using h2)
          · exact h
        refine ⟨?_, ih hrest⟩
        intro b hb
        rcases mem_mapInsert hb with hb | hb
        · rw [hb]
          exact h3
        · exact hhead b hb

theorem foldl_mapInsert_pairwise (P : List (List Nat × List Nat)) :
    ∀ (m : List (List Nat × List Nat)),
      m.Pairwise (fun a b => bytesLt a.1 b.1 = true) →
      (P.foldl (fun m kv => mapInsert kv.1 kv.2 m) m).Pairwise
        (fun a b => bytesLt a.1 b.1 = true) := by
  induction P with
  | nil =>
    intro m hm
    simpa using hm
  | cons kv rest ih =>
    intro m hm
    exact ih _ (mapInsert_pairwise hm)

theorem toBTree_pairwise (P : List (List Nat × List Nat)) :
    (toBTree P).Pairwise (fun a b => bytesLt a.1 b.1 = true) :=
  foldl_mapInsert_pairwise P [] (by simp)

theorem mapLookup_cons_ne {kv : List Nat × List Nat}
    {rest : List (List Nat × List Nat)} {k : List Nat}
    (h : (kv.1 == k) = false) : mapLookup (kv :: rest) k = mapLookup rest k := by
  simp [mapLookup, h]

theorem mapLookup_cons_self {kv : List Nat × List Nat}
    {rest : List (List Nat × List Nat)} :
    mapLookup (kv :: rest) kv.1 = some kv.2 := by
  simp [mapLookup]

theorem mapLookup_insert (k v k' : List Nat) :
    ∀ (m : List (List Nat × List Nat)),
      mapLookup (mapInsert k v m) k' =
        if k == k' then some v else mapLookup m k' := by
  intro m
  induction m with
  | nil => simp [mapInsert, mapLookup]
  | cons kv rest ih =>
    obtain ⟨k₀, v₀⟩ := kv
    simp only [mapInsert]
    by_cases h1 : bytesLt k k₀ = true
    · rw [if_pos h1]
      simp [mapLookup]
    · rw [if_neg h1]
      by_cases h2 : (k == k₀) = true
      · rw [if_pos h2]
        have hk : k = k₀ := by simpa using h2
        subst hk
        by_cases h3 : (k == k') = true <;> simp [mapLookup, h3]
      · rw [if_neg h2]
        by_cases h3 : (k == k') = true
        · have hk : k = k' := by simpa using h3
          subst hk
          have h4 : (k₀ == k) = false := by
            rw [beq_eq_false_iff_ne]
            intro he
            exact absurd (by simp [he]) h2
          simp [mapLookup, h3, h4, ih]
        · simp [mapLookup, h3, ih]

theorem mapLookup_eq_none_of_forall_lt {x : List Nat} :
    ∀ {m : List (List Nat × List Nat)},
      (∀ kv ∈ m, bytesLt x kv.1 = true) → mapLookup m x = none := by
  intro m
  induction m with
  | nil =>
    intro h
    rfl
  | cons kv rest ih =>
    intro h
    have h1 : bytesLt x kv.1 = true := h kv (by simp)
    have h2 : (kv.1 == x) = false := by
      rw [beq_eq_false_iff_ne]
      intro he
      rw [he] at h1
      rw [bytesLt_irrefl] at h1
      exact absurd h1 (by simp)
    rw [mapLookup_cons_ne h2]
    exact ih (fun b hb => h b (by simp [hb]))

theorem sorted_lookup_ext :
    ∀ (m₁ m₂ : List (List Nat × List Nat)),
      m₁.Pairwise (fun a b => bytesLt a.1 b.1 = true) →
      m₂.Pairwise (fun a b => bytesLt a.1 b.1 = true) →
      (∀ k, mapLookup m₁ k = mapLookup m₂ k) → m₁ = m₂ := by
  intro m₁
  induction m₁ with
  | nil =>
    intro m₂ h₁ h₂ hl
    cases m₂ with
    | nil => rfl
    | cons kv rest =>
      have h := hl kv.1
      rw [mapLookup_cons_self] at h
      simp [mapLookup] at h
  | cons a r₁ ih =>
    intro m₂ h₁ h₂ hl
    cases m₂ with
    | nil =>
      have h := hl a.1
      rw [mapLookup_cons_self] at h
      simp [mapLookup] at h
    | cons b r₂ =>
      rw [List.pairwise_cons] at h₁ h₂
      obtain ⟨ha, hr₁⟩ := h₁
      obtain ⟨hb, hr₂⟩ := h₂
      have hkey : a.1 = b.1 := by
        rcases bytesLt_trichotomy a.1 b.1 with h | h | h
        · exfalso
          have hl1 := hl a.1
          rw [mapLookup_cons_self] at hl1
          rw [mapLookup_eq_none_of_forall_lt (fun kv hkv => by
            rcases List.mem_cons.mp hkv with hkv | hkv
            · rw [hkv]; exact h
            · exact bytesLt_trans h (hb kv hkv))] at hl1
          exact absurd hl1 (by simp)
        · exact h
        · exfalso
          have hl1 := (hl b.1).symm
          rw [mapLookup_cons_self] at hl1
          rw [mapLookup_eq_none_of_forall_lt (fun kv hkv => by
            rcases List.mem_cons.mp hkv with hkv | hkv
            · rw [hkv]; exact h
            · exact bytesLt_trans h (ha kv hkv))] at hl1
          exact absurd hl1 (by simp)
      have hval : a.2 = b.2 := by
        have hl1 := hl a.1
        rw [mapLookup_cons_self] at hl1
        rw [hkey, mapLookup_cons_self] at hl1
        simpa using hl1
      have htail : r₁ = r₂ := by
        apply ih r₂ hr₁ hr₂
        intro k
        by_cases hk : k = a.1
        · subst hk
          rw [mapLookup_eq_none_of_forall_lt (fun kv hkv => ha kv hkv),
            mapLookup_eq_none_of_forall_lt (fun kv hkv => by
              rw [hkey]
              exact hb kv hkv)]
        · have hl1 := hl k
          have hne1 : (a.1 == k) = false := by
            rw [beq_eq_false_iff_ne]
            intro he
            exact hk he.symm
          have hne2 : (b.1 == k) = false := by
            rw [beq_eq_false_iff_ne]
            intro he
            apply hk
            rw [← he, hkey]
          rw [mapLookup_cons_ne hne1, mapLookup_cons_ne hne2] at hl1
          exact hl1
      obtain ⟨a1, a2⟩ := a
      obtain ⟨b1, b2⟩ := b
      simp only at hkey hval
      rw [hkey, hval, htail]

theorem mapLookup_foldl (P : List (List Nat × List Nat)) :
    ∀ (m : List (List Nat × List Nat)) (k : List Nat),
      mapLookup (P.foldl (fun m kv => mapInsert kv.1 kv.2 m) m) k =
        lastAssocAux P k (mapLookup m k) := by
  induction P with
  | nil =>
    intro m k
    rfl
  | cons kv rest ih =>
    intro m k
    show mapLookup (rest.foldl _ (mapInsert kv.1 kv.2 m)) k = _
    rw [ih (mapInsert kv.1 kv.2 m) k, mapLookup_insert]
    rfl

theorem mapLookup_toBTree (P : List (List Nat × List Nat)) (k : List Nat) :
    mapLookup (toBTree P) k = lastAssoc P k := by
  unfold toBTree lastAssoc
  rw [mapLookup_foldl]
  rfl

/-! ### C3, C7, C8, C9: contracts of the root functions -/

/-- **C3**: `trie_root` depends only on the mapping that assigns to each
distinct key the value of its last occurrence in the input list: two inputs
with the same last-occurrence mapping (in particular any permutation keeping
the order of equal keys, or the removal of a pair whose key reappears later)
produce the same root digest. -/
theorem trie_root_last_occurrence {σ : Type} (H : Hasher) (ops : TrieStreamOps σ)
    (P Q : List (List Nat × List Nat))
    (h : ∀ k, lastAssoc P k = lastAssoc Q k) :
    trie_root H ops P = trie_root H ops Q := by
  have hPQ : toBTree P = toBTree Q :=
    sorted_lookup_ext _ _ (toBTree_pairwise P) (toBTree_pairwise Q)
      (fun k => by rw [mapLookup_toBTree, mapLookup_toBTree, h])
  unfold trie_root
  rw [hPQ]

/-- A concrete stream for the witnesses: it logs every append into a flat
byte list, with tags separating the operations. -/
def logStream : TrieStreamOps (List Nat) where
  new := []
  append_empty_data s := s ++ [100]
  append_leaf s k v := s ++ [101] ++ k ++ [102] ++ v
  append_extension s k := s ++ [103] ++ k
  begin_branch s := s ++ [104]
  append_value s v := s ++ [105] ++ v
  append_substream s sub := s ++ [106] ++ sub
  encode i := [i]
  out s := s

/-- A concrete hasher for the witnesses. -/
def idHasher : Hasher where
  hash l := 200 :: l

/-- Witness for C3: dropping a duplicated key's earlier occurrence leaves the
root unchanged. -/
theorem trie_root_last_occurrence_witness :
    trie_root idHasher logStream [([1], [2]), ([0], [5]), ([1], [7])] =
      trie_root idHasher logStream [([0], [5]), ([1], [7])] :=
  trie_root_last_occurrence idHasher logStream _ _ (by
    intro k
    by_cases h1 : k = [1]
    · subst h1
      rfl
    · by_cases h0 : k = [0]
      · subst h0
        rfl
      · have e1 : ¬(([1] : List Nat) = k) := fun he => h1 he.symm
        have e0 : ¬(([0] : List Nat) = k) := fun he => h0 he.symm
        simp [lastAssoc, lastAssocAux, e1, e0])

/-- **C7**: `sec_trie_root` is `trie_root` of the input with every key
replaced by its digest, values unchanged. -/
theorem sec_trie_root_spec {σ : Type} (H : Hasher) (ops : TrieStreamOps σ)
    (input : List (List Nat × List Nat)) :
    sec_trie_root H ops input =
      trie_root H ops (input.map (fun kv => (H.hash kv.1, kv.2))) := rfl

theorem enumFrom_map_encode (enc : Nat → List Nat) :
    ∀ (l : List (List Nat)) (i : Nat),
      (enumFrom i l).map (fun p => (enc p.1, p.2)) =
        (List.range l.length).map (fun j => (enc (i + j), l.getD j [])) := by
  intro l
  induction l with
  | nil =>
    intro i
    simp [enumFrom]
  | cons v rest ih =>
    intro i
    simp only [enumFrom, List.map_cons, List.length_cons, List.range_succ_eq_map,
      List.map_map]
    congr 1
    rw [ih (i + 1)]
    apply List.map_congr_left
    intro j hj
    have hz : i + 1 + j = i + (j + 1) := by omega
    simp [Function.comp, List.getD_cons_succ, hz]

/-- **C8**: `ordered_trie_root` of a value list is `trie_root` of the pairs
keyed by the stream encoding of each value's zero-based position. -/
theorem ordered_trie_root_spec {σ : Type} (H : Hasher) (ops : TrieStreamOps σ)
    (input : List (List Nat)) :
    ordered_trie_root H ops input =
      trie_root H ops ((List.range input.length).map
        (fun i => (ops.encode i, input.getD i []))) := by
  unfold ordered_trie_root
  rw [enumFrom_map_encode]
  simp

/-- **C9**: `trie_root` of the empty input is the hash of a fresh stream
after a single `append_empty_data` — the stream's empty encoding. -/
theorem trie_root_empty {σ : Type} (H : Hasher) (ops : TrieStreamOps σ) :
    trie_root H ops [] = H.hash (ops.out (ops.append_empty_data ops.new)) := by
  rfl

/-! ### C10: bounds of the nibble accesses in the branch-slot loop -/

/-- The checked twin of `countNibble`: the `take_while` of lines 226–231 with
the source's panicking index `k.as_ref()[cursor]` made observable — `none`
exactly when the loop would index a key out of bounds. -/
def countNibbleO (l : List (List Nat × List Nat)) (cursor i : Nat) : Option Nat :=
  match l with
  | [] => some 0
  | kv :: rest =>
    match kv.1[cursor]? with
    | none => none
    | some n =>
      if n == i then
        match countNibbleO rest cursor i with
        | none => none
        | some c => some (c + 1)
      else some 0

/-- The checked twin of the branch-slot loop of `build_trie` (lines 215–247):
it returns the final `begin_` or `none` as soon as a slot's `take_while`
would index out of bounds.  The stream bookkeeping is dropped — only the
nibble accesses matter for the bounds claim. -/
def branchSlotsO (input : List (List Nat × List Nat)) (cursor : Nat) :
    Nat → Nat → Nat → Option Nat
  | 0, _, begin_ => some begin_
  | rem + 1, i, begin_ =>
    if input.length ≤ begin_ then some begin_
    else
      match countNibbleO (input.drop begin_) cursor i with
      | none => none
      | some c => branchSlotsO input cursor rem (i + 1) (begin_ + c)

theorem countNibbleO_some {cursor i : Nat} :
    ∀ {l : List (List Nat × List Nat)},
      (∀ kv ∈ l, cursor < kv.1.length) →
      ∃ c, countNibbleO l cursor i = some c := by
  intro l
  induction l with
  | nil =>
    intro h
    exact ⟨0, rfl⟩
  | cons kv rest ih =>
    intro h
    have h1 : cursor < kv.1.length := h kv (by simp)
    obtain ⟨c, hc⟩ := ih (fun b hb => h b (by simp [hb]))
    simp only [countNibbleO, List.getElem?_eq_getElem h1]
    by_cases heq : (kv.1[cursor] == i) = true
    · rw [if_pos heq, hc]
      exact ⟨c + 1, rfl⟩
    · rw [if_neg heq]
      exact ⟨0, rfl⟩

theorem branchSlotsO_some {input : List (List Nat × List Nat)} {cursor : Nat} :
    ∀ (rem i begin_ : Nat),
      (∀ kv ∈ input.drop begin_, cursor < kv.1.length) →
      ∃ b, branchSlotsO input cursor rem i begin_ = some b := by
  intro rem
  induction rem with
  | zero =>
    intro i begin_ h
    exact ⟨begin_, rfl⟩
  | succ rem ih =>
    intro i begin_ h
    simp only [branchSlotsO]
    by_cases hb : input.length ≤ begin_
    · rw [if_pos hb]
      exact ⟨begin_, rfl⟩
    · rw [if_neg hb]
      obtain ⟨c, hc⟩ := countNibbleO_some h (i := i)
      rw [hc]
      apply ih
      intro kv hkv
      apply h
      have hsub : kv ∈ (input.drop begin_).drop c := by
        have hdd : (input.drop begin_).drop c = input.drop (begin_ + c) := by
          rw [List.drop_drop]
          try rw [Nat.add_comm]
        rw [hdd]
        exact hkv
      exact List.mem_of_mem_drop hsub

/-- **C10**: under the preconditions of the branch-node path — nibble keys
strictly sorted (hence pairwise distinct), all agreeing on their first
`cursor` nibbles, and `cursor` at most every key's length — every nibble
access `k[cursor]` of the slot loop is in bounds: the checked loop
`branchSlotsO`, started exactly as the source starts it (slot `0`, `begin`
set to `1` when the first key is exhausted, else `0`), never reaches its
`none` branch. -/
theorem branch_slots_in_bounds (k₀ v₀ : List Nat)
    (rest : List (List Nat × List Nat)) (cursor : Nat)
    (hsorted : ((k₀, v₀) :: rest).Pairwise (fun a b => bytesLt a.1 b.1 = true))
    (hlen : ∀ kv ∈ (k₀, v₀) :: rest, cursor ≤ kv.1.length)
    (hpre : ∀ kv ∈ (k₀, v₀) :: rest, kv.1.take cursor = k₀.take cursor) :
    ∃ b, branchSlotsO ((k₀, v₀) :: rest) cursor 16 0
      (if cursor == k₀.length then 1 else 0) = some b := by
  apply branchSlotsO_some
  by_cases hc : cursor = k₀.length
  · rw [if_pos (by simp [hc])]
    intro kv hkv
    have hkv' : kv ∈ rest := by simpa using hkv
    by_contra hnlt
    have heq : kv.1.length = cursor :=
      Nat.le_antisymm (by omega) (hlen kv (by simp [hkv']))
    have h1 : kv.1 = k₀ := by
      have e1 : kv.1.take cursor = kv.1 := List.take_of_length_le (by omega)
      have e2 : k₀.take cursor = k₀ := List.take_of_length_le (by omega)
      have e := hpre kv (by simp [hkv'])
      rw [e1, e2] at e
      exact e
    have hlt : bytesLt k₀ kv.1 = true :=
      (List.pairwise_cons.mp hsorted).1 kv hkv'
    rw [h1, bytesLt_irrefl] at hlt
    exact absurd hlt (by simp)
  · rw [if_neg (by simp [hc])]
    intro kv hkv
    rw [List.drop_zero] at hkv
    by_contra hnlt
    have heq : kv.1.length = cursor :=
      Nat.le_antisymm (by omega) (hlen kv hkv)
    have hcur_lt : cursor < k₀.length := by
      have h := hlen (k₀, v₀) (by simp)
      simp at h
      omega
    rcases List.mem_cons.mp hkv with hkv' | hkv'
    · rw [hkv'] at heq
      simp at heq
      omega
    · have e1 : kv.1 = k₀.take cursor := by
        have e := hpre kv hkv
        rw [List.take_of_length_le (by omega)] at e
        exact e
      have hpl : bytesLt (k₀.take cursor) k₀ = true :=
        bytesLt_take_lt k₀ cursor hcur_lt
      have hlt : bytesLt k₀ kv.1 = true :=
        (List.pairwise_cons.mp hsorted).1 kv hkv'
      rw [e1] at hlt
      have hcontra := bytesLt_trans hlt hpl
      rw [bytesLt_irrefl] at hcontra
      exact absurd hcontra (by simp)

/-- Witness for C10 on a concrete sorted two-entry input at `cursor = 0`. -/
theorem branch_slots_in_bounds_witness :
    ∃ b, branchSlotsO [([0, 1], [9]), ([1, 2], [8])] 0 16 0 0 = some b :=
  branch_slots_in_bounds [0, 1] [9] [([1, 2], [8])] 0
    (by simp [List.pairwise_cons, bytesLt])
    (by intro kv hkv; exact Nat.zero_le _)
    (by intro kv hkv; rfl)
